import Mathlib

/-!
# MBAT: the token deployment migration

A shallow embedding of `migrations/2_deploy_mbat_token.js`:

```
const MBATToken = artifacts.require("MBATToken");
module.exports = function (deployer) {
  const initialSupply = 1000000000 * (10 ** 18);
  deployer.deploy(MBATToken, initialSupply);
};
```

The host language evaluates `1000000000 * (10 ** 18)` on ECMAScript Number
values, which are IEEE-754 binary64 floating-point numbers.  The first part of
this file models those values and the two operators the expression uses; the
second part models the deployer the exported function talks to.
-/

namespace MBAT

set_option maxRecDepth 100000
set_option exponentiation.threshold 4096

/-! ## ECMAScript Number values (IEEE-754 binary64) -/

/-- Width of the binary64 significand, hidden bit included. -/
def precision : Nat := 53

/-- Exponent of the least significant bit of the smallest subnormal. -/
def minExp : Int := -1074

/-- Largest exponent of the least significant bit of a finite value:
the largest finite binary64 value is `(2^53 - 1) * 2^971`. -/
def maxExp : Int := 971

/-- An ECMAScript Number value.  `finite neg mant exp` stands for the real
number `(-1)^neg * mant * 2^exp`. -/
inductive Number where
  | finite (neg : Bool) (mant : Nat) (exp : Int)
  | infinity (neg : Bool)
  | nan
  deriving DecidableEq, Repr

/-- Number of binary digits of `n`, by structural recursion on a fuel that
bounds it. -/
def bitLengthAux : Nat → Nat → Nat
  | 0, _ => 0
  | fuel + 1, n => if n = 0 then 0 else bitLengthAux fuel (n / 2) + 1

/-- Number of binary digits of `n` (`0` for `0`). -/
def bitLength (n : Nat) : Nat := bitLengthAux n n

/-- Quotient kept when the low `s` bits of `m` are dropped under
round-to-nearest, ties-to-even. -/
def roundShift (m s : Nat) : Nat :=
  let q := m / 2 ^ s
  let r := m % 2 ^ s
  if 2 * r < 2 ^ s then q
  else if 2 ^ s < 2 * r then q + 1
  else if q % 2 = 0 then q else q + 1

/-- Correct rounding of the exact value `(-1)^neg * m * 2^e` to binary64
(round to nearest, ties to even), with gradual underflow and overflow to
infinity.  The finite results are normalised: the significand has 53 bits
unless the exponent is the minimal one. -/
def roundToBinary64 (neg : Bool) (m : Nat) (e : Int) : Number :=
  if m = 0 then Number.finite neg 0 minExp
  else
    let t : Int := max (e + (bitLength m : Int) - (precision : Int)) minExp
    if t ≤ e then
      if maxExp < t then Number.infinity neg
      else Number.finite neg (m * 2 ^ (e - t).toNat) t
    else
      let q := roundShift m (t - e).toNat
      let q' := if q = 2 ^ precision then 2 ^ (precision - 1) else q
      let t' := if q = 2 ^ precision then t + 1 else t
      if maxExp < t' then Number.infinity neg else Number.finite neg q' t'

namespace Number

/-- The Number value of a decimal integer literal whose mathematical value is
`mv` (ECMAScript NumericLiteral evaluation: the mathematical value, rounded). -/
def literal (mv : Nat) : Number := roundToBinary64 false mv 0

/-- The rational number a finite Number value stands for. -/
def toRat : Number → Option ℚ
  | finite neg m e => some ((if neg then -1 else 1) * (m : ℚ) * (2 : ℚ) ^ e)
  | _ => none

/-- ECMAScript `Number::multiply`: NaN is contagious, infinity times zero is
NaN, the sign is the exclusive or of the signs, and a finite product is the
exact product correctly rounded. -/
def multiply : Number → Number → Number
  | nan, _ => nan
  | _, nan => nan
  | infinity s, infinity s' => infinity (xor s s')
  | infinity s, finite s' m _ => if m = 0 then nan else infinity (xor s s')
  | finite s m _, infinity s' => if m = 0 then nan else infinity (xor s s')
  | finite s m e, finite s' m' e' => roundToBinary64 (xor s s') (m * m') (e + e')

/-- ECMAScript `Number::exponentiate` for an exponent that is a non-negative
integer `n`, the case the exponent literal `18` falls in.  A zero exponent
gives `1` for every base (NaN included); an infinite base gives infinity,
negative exactly for an odd exponent.  For a finite base ECMAScript asks for
an approximation of the exact power; the model takes the exact power
correctly rounded, which is the power itself whenever it is representable. -/
def exponentiate : Number → Nat → Number
  | _, 0 => literal 1
  | nan, _ + 1 => nan
  | infinity s, n + 1 => infinity (s && decide ((n + 1) % 2 = 1))
  | finite s m e, n + 1 =>
      roundToBinary64 (s && decide ((n + 1) % 2 = 1)) (m ^ (n + 1)) (e * ((n + 1 : Nat) : Int))

end Number

/-- The constant of the migration: `1000000000 * (10 ** 18)`. -/
def initialSupply : Number :=
  Number.multiply (Number.literal 1000000000) (Number.exponentiate (Number.literal 10) 18)

/-- Well-formed binary64 values: a finite value has a significand below
`2^53` and an exponent in the range of the format. -/
def Number.IsBinary64 : Number → Prop
  | Number.finite _ m e => m < 2 ^ precision ∧ minExp ≤ e ∧ e ≤ maxExp
  | _ => True

instance Number.decidableIsBinary64 (x : Number) : Decidable x.IsBinary64 := by
  cases x <;> unfold Number.IsBinary64 <;> infer_instance

/-- A rational number is representable when it is the value of a well-formed
finite Number. -/
def Representable (q : ℚ) : Prop :=
  ∃ x : Number, x.IsBinary64 ∧ x.toRat = some q

/-! ## The deployer and the migration -/

/-- An ECMAScript value as the migration meets them: `undefined`, a Number,
or a host object of the orchestrator. -/
inductive Value (ρ : Type) where
  | undefined
  | number (x : Number)
  | object (o : ρ)

/-- One call `deploy(artifact, ...args)` as the deployer receives it. -/
structure DeployRequest (α ρ : Type) where
  artifact : α
  args : List (Value ρ)

/-- The deployer handed to a migration.  `requests` records every call of
`deploy` in order; `context` is everything else the orchestrator carries
(network, accounts, options, earlier deployments); `respond` is the
orchestrator's reaction to a request: it returns a value or throws, and may
update the context. -/
structure Deployer (α ρ ε κ : Type) where
  context : κ
  requests : List (DeployRequest α ρ)
  respond : κ → DeployRequest α ρ → Except ε (Value ρ) × κ

/-- The method `deployer.deploy(artifact, ...args)`: the request is recorded
and the orchestrator reacts to it. -/
def Deployer.deploy {α ρ ε κ : Type} (d : Deployer α ρ ε κ) (artifact : α)
    (args : List (Value ρ)) : Except ε (Value ρ) × Deployer α ρ ε κ :=
  let req : DeployRequest α ρ := ⟨artifact, args⟩
  let out := d.respond d.context req
  (out.1, { d with context := out.2, requests := d.requests ++ [req] })

/-- The artifact registry `artifacts`: `require` looks an artifact up by name
or throws. -/
structure Artifacts (α ε : Type) where
  require : String → Except ε α

/-- The exported function `module.exports = function (deployer) { ... }`,
closed over the module-level constant `MBATToken`.  A throw of
`deployer.deploy` propagates; on normal completion the function falls off its
end and returns `undefined`. -/
def module.exports {α ρ ε κ : Type} (MBATToken : α) (deployer : Deployer α ρ ε κ) :
    Except ε (Value ρ) × Deployer α ρ ε κ :=
  let initialSupply := MBAT.initialSupply
  match deployer.deploy MBATToken [Value.number initialSupply] with
  | (Except.error e, deployer') => (Except.error e, deployer')
  | (Except.ok _, deployer') => (Except.ok Value.undefined, deployer')

/-- Loading the module: `const MBATToken = artifacts.require("MBATToken")` is
evaluated once, then the function is exported. -/
def loadModule {α ρ ε κ : Type} (artifacts : Artifacts α ε) :
    Except ε (Deployer α ρ ε κ → Except ε (Value ρ) × Deployer α ρ ε κ) :=
  match artifacts.require "MBATToken" with
  | Except.error e => Except.error e
  | Except.ok MBATToken => Except.ok (module.exports MBATToken)

/-- The deployer after `n` successive invocations of an exported function. -/
def invokeTimes {α ρ ε κ : Type}
    (f : Deployer α ρ ε κ → Except ε (Value ρ) × Deployer α ρ ε κ) :
    Nat → Deployer α ρ ε κ → Deployer α ρ ε κ
  | 0, d => d
  | n + 1, d => invokeTimes f n (f d).2

/-! ## Concrete orchestrators -/

/-- A registry that knows the artifact `MBATToken` only. -/
def sampleArtifacts : Artifacts String String :=
  ⟨fun name => if name = "MBATToken" then Except.ok name else Except.error "artifact not found"⟩

/-- A deployer whose `deploy` returns a host object and counts the call in
its context. -/
def sampleDeployer : Deployer String Nat String Nat :=
  ⟨0, [], fun k _ => (Except.ok (Value.object 7), k + 1)⟩

/-- A deployer whose `deploy` throws. -/
def failingDeployer : Deployer String Nat String Nat :=
  ⟨0, [], fun k _ => (Except.error "insufficient funds", k)⟩

/-! ## The rounding stays inside the format -/

/-- Zero has no binary digit, whatever the fuel. -/
theorem bitLengthAux_zero (fuel : ℕ) : bitLengthAux fuel 0 = 0 := by
  cases fuel <;> simp [bitLengthAux]

/-- With enough fuel, `bitLengthAux` is the number of binary digits:
`2^(k-1) ≤ n < 2^k`. -/
theorem bitLengthAux_spec (fuel : ℕ) :
    ∀ n : ℕ, n ≤ fuel →
      n < 2 ^ bitLengthAux fuel n ∧ (n ≠ 0 → 2 ^ (bitLengthAux fuel n - 1) ≤ n) := by
  induction fuel with
  | zero =>
    intro n hn
    have : n = 0 := by omega
    subst this
    simp [bitLengthAux]
  | succ fuel ih =>
    intro n hn
    by_cases h0 : n = 0
    · subst h0
      simp [bitLengthAux]
    · have hhalf : n / 2 ≤ fuel := by omega
      obtain ⟨hlt, hge⟩ := ih (n / 2) hhalf
      simp only [bitLengthAux, if_neg h0, Nat.add_sub_cancel]
      refine ⟨?_, fun _ => ?_⟩
      · rw [pow_succ]; omega
      · by_cases h1 : n / 2 = 0
        · rw [h1, bitLengthAux_zero]
          simp
          omega
        · have hk := hge h1
          have hpos : bitLengthAux fuel (n / 2) ≠ 0 := by
            intro hz
            rw [hz] at hlt
            simp at hlt
            exact h1 hlt
          obtain ⟨k, hk'⟩ := Nat.exists_eq_succ_of_ne_zero hpos
          rw [hk'] at hk ⊢
          simp only [Nat.succ_eq_add_one, Nat.add_sub_cancel] at hk
          rw [pow_succ]
          omega

/-- A number is below two to the power of its number of binary digits. -/
theorem lt_two_pow_bitLength (n : ℕ) : n < 2 ^ bitLength n :=
  (bitLengthAux_spec n n le_rfl).1

/-- A positive number reaches two to the power of its number of binary digits
less one. -/
theorem two_pow_bitLength_le (n : ℕ) (h : n ≠ 0) : 2 ^ (bitLength n - 1) ≤ n :=
  (bitLengthAux_spec n n le_rfl).2 h

/-- The rounded quotient is the floor or the floor plus one. -/
theorem roundShift_cases (m s : ℕ) :
    roundShift m s = m / 2 ^ s ∨ roundShift m s = m / 2 ^ s + 1 := by
  unfold roundShift
  simp only
  split
  · exact Or.inl rfl
  · split
    · exact Or.inr rfl
    · split
      · exact Or.inl rfl
      · exact Or.inr rfl

/-- Every result of the rounding is a well-formed binary64 value. -/
theorem roundToBinary64_isBinary64 (neg : Bool) (m : ℕ) (e : ℤ) :
    (roundToBinary64 neg m e).IsBinary64 := by
  unfold roundToBinary64
  by_cases hm : m = 0
  · simp [hm, Number.IsBinary64, minExp, maxExp]
  · simp only [if_neg hm]
    have hlen := lt_two_pow_bitLength m
    have htmin : minExp ≤ max (e + (bitLength m : ℤ) - (precision : ℤ)) minExp := le_max_right _ _
    have htlen : e + (bitLength m : ℤ) - (precision : ℤ)
        ≤ max (e + (bitLength m : ℤ) - (precision : ℤ)) minExp := le_max_left _ _
    generalize max (e + (bitLength m : ℤ) - (precision : ℤ)) minExp = t at htmin htlen
    simp only [precision] at htlen ⊢
    by_cases hte : t ≤ e
    · simp only [if_pos hte]
      by_cases hov : maxExp < t
      · simp [hov, Number.IsBinary64]
      · simp only [if_neg hov, Number.IsBinary64, precision]
        refine ⟨?_, htmin, not_lt.mp hov⟩
        have hsum : bitLength m + (e - t).toNat ≤ 53 := by omega
        calc m * 2 ^ (e - t).toNat < 2 ^ bitLength m * 2 ^ (e - t).toNat :=
              Nat.mul_lt_mul_of_pos_right hlen (by positivity)
          _ = 2 ^ (bitLength m + (e - t).toNat) := (pow_add _ _ _).symm
          _ ≤ 2 ^ 53 := Nat.pow_le_pow_right (by norm_num) hsum
    · simp only [if_neg hte]
      have hq : roundShift m (t - e).toNat ≤ 2 ^ 53 := by
        have hsum : bitLength m ≤ 53 + (t - e).toNat := by omega
        have hm' : m < 2 ^ 53 * 2 ^ (t - e).toNat := by
          calc m < 2 ^ bitLength m := hlen
            _ ≤ 2 ^ (53 + (t - e).toNat) := Nat.pow_le_pow_right (by norm_num) hsum
            _ = 2 ^ 53 * 2 ^ (t - e).toNat := pow_add _ _ _
        have hdiv : m / 2 ^ (t - e).toNat < 2 ^ 53 :=
          Nat.div_lt_of_lt_mul (by rw [Nat.mul_comm]; exact hm')
        rcases roundShift_cases m (t - e).toNat with h | h <;> omega
      by_cases hcarry : roundShift m (t - e).toNat = 2 ^ 53
      · simp only [if_pos hcarry]
        by_cases hov : maxExp < t + 1
        · simp [hov, Number.IsBinary64]
        · simp only [if_neg hov, Number.IsBinary64, precision]
          exact ⟨by norm_num, by omega, not_lt.mp hov⟩
      · simp only [if_neg hcarry]
        by_cases hov : maxExp < t
        · simp [hov, Number.IsBinary64]
        · simp only [if_neg hov, Number.IsBinary64, precision]
          exact ⟨by omega, htmin, not_lt.mp hov⟩

/-- The value of a literal is a well-formed binary64 value. -/
theorem literal_isBinary64 (mv : ℕ) : (Number.literal mv).IsBinary64 :=
  roundToBinary64_isBinary64 false mv 0

/-- The product of two Number values is a well-formed binary64 value. -/
theorem multiply_isBinary64 (x y : Number) : (Number.multiply x y).IsBinary64 := by
  cases x <;> cases y <;> simp only [Number.multiply] <;>
    first
    | exact roundToBinary64_isBinary64 _ _ _
    | (split <;> simp [Number.IsBinary64])
    | simp [Number.IsBinary64]

/-! ## Evaluation of the constant -/

/-- The literal `1000000000` as a normalised binary64 value. -/
theorem literal_1000000000 :
    Number.literal 1000000000 = Number.finite false 8388608000000000 (-23) := by decide

/-- The literal `10` as a normalised binary64 value. -/
theorem literal_10 : Number.literal 10 = Number.finite false 5629499534213120 (-49) := by
  decide

/-- The power `10 ** 18` as a normalised binary64 value. -/
theorem exponentiate_10_18 :
    Number.exponentiate (Number.literal 10) 18 = Number.finite false 7812500000000000 7 := by
  decide

/-- The product `1000000000 * (10 ** 18)` as a normalised binary64 value. -/
theorem initialSupply_eq : initialSupply = Number.finite false 7275957614183426 37 := by
  decide

/-- The literal `1e27` as a normalised binary64 value. -/
theorem literal_1e27 : Number.literal (10 ^ 27) = Number.finite false 7275957614183426 37 := by
  decide

/-- The rational value of the product. -/
theorem initialSupply_toRat :
    initialSupply.toRat = some 1000000000000000013287555072 := by
  rw [initialSupply_eq]
  simp only [Number.toRat]
  norm_num

/-- Between two consecutive multiples `K * 2^s` and `(K + 1) * 2^s` of a power
of two lies no binary64 value, when `K` has at least 53 bits or `2^s` is at
most the smallest unit of the format: a significand below `2^53` cannot reach
that far with a smaller unit, and with a larger unit it lands on a multiple. -/
theorem no_value_in_gap (K : ℕ) (s : ℤ) (hK : 2 ^ 52 ≤ K ∨ s ≤ minExp) (q : ℚ)
    (hq : Representable q) :
    ¬ ((K : ℚ) * 2 ^ s < q ∧ q < ((K : ℚ) + 1) * 2 ^ s) := by
  rintro ⟨hlo, hhi⟩
  obtain ⟨x, hx, hxq⟩ := hq
  cases x with
  | infinity neg => simp [Number.toRat] at hxq
  | nan => simp [Number.toRat] at hxq
  | finite neg m e =>
    simp only [Number.toRat, Option.some.injEq] at hxq
    simp only [Number.IsBinary64, precision] at hx
    obtain ⟨hm, hemin, -⟩ := hx
    have hs : (0 : ℚ) < 2 ^ s := by positivity
    have he : (0 : ℚ) < 2 ^ e := by positivity
    have hqpos : 0 < q := lt_of_le_of_lt (by positivity) hlo
    cases neg with
    | true =>
      have : q ≤ 0 := by
        rw [← hxq]
        have : (0 : ℚ) ≤ (m : ℚ) * 2 ^ e := by positivity
        simp only [if_true]
        linarith
      linarith
    | false =>
      simp only [Bool.false_eq_true, if_false, one_mul] at hxq
      rcases le_or_lt s e with hse | hes
      · obtain ⟨n, hn⟩ := Int.eq_ofNat_of_zero_le (sub_nonneg.mpr hse)
        have hen : e = s + (n : ℤ) := by omega
        have hpow : (2 : ℚ) ^ e = 2 ^ s * 2 ^ n := by
          rw [hen, zpow_add₀ (by norm_num : (2 : ℚ) ≠ 0), zpow_natCast]
        have hq' : q = ((m * 2 ^ n : ℕ) : ℚ) * 2 ^ s := by
          rw [← hxq, hpow]; push_cast; ring
        rw [hq'] at hlo hhi
        have h1 : (K : ℚ) < ((m * 2 ^ n : ℕ) : ℚ) := lt_of_mul_lt_mul_right hlo hs.le
        have h2 : ((m * 2 ^ n : ℕ) : ℚ) < (K : ℚ) + 1 := lt_of_mul_lt_mul_right hhi hs.le
        have h1' : K < m * 2 ^ n := by exact_mod_cast h1
        have h2' : m * 2 ^ n < K + 1 := by exact_mod_cast h2
        omega
      · rcases hK with hK | hsmin
        · obtain ⟨n, hn⟩ :=
            Int.eq_ofNat_of_zero_le (sub_nonneg.mpr (Int.add_one_le_of_lt hes))
          have hsn : s = e + 1 + (n : ℤ) := by omega
          have hpow : (2 : ℚ) ^ s = 2 ^ e * 2 * 2 ^ n := by
            rw [hsn, zpow_add₀ (by norm_num : (2 : ℚ) ≠ 0),
              zpow_add₀ (by norm_num : (2 : ℚ) ≠ 0), zpow_natCast, zpow_one]
          have hn1 : (1 : ℚ) ≤ 2 ^ n := by exact_mod_cast Nat.one_le_two_pow
          have hmq : (m : ℚ) < 2 ^ 53 := by exact_mod_cast hm
          have hKq : (2 : ℚ) ^ 52 ≤ K := by exact_mod_cast hK
          have : q ≤ (K : ℚ) * 2 ^ s := by
            rw [← hxq, hpow]
            have h3 : (m : ℚ) * 2 ^ e ≤ 2 ^ 53 * 2 ^ e := by
              exact mul_le_mul_of_nonneg_right hmq.le he.le
            have h4 : (2 : ℚ) ^ 53 * 2 ^ e ≤ (K : ℚ) * (2 ^ e * 2 * 2 ^ n) := by
              have h5 : (2 : ℚ) ^ 52 * (2 ^ e * 2 * 1) ≤ (K : ℚ) * (2 ^ e * 2 * 2 ^ n) := by
                apply mul_le_mul hKq _ (by positivity) (by positivity)
                exact mul_le_mul_of_nonneg_left hn1 (by positivity)
              calc (2 : ℚ) ^ 53 * 2 ^ e = 2 ^ 52 * (2 ^ e * 2 * 1) := by ring
                _ ≤ _ := h5
            linarith
          linarith
        · omega

/-! ## The rounding is to nearest -/

/-- The rounded quotient with the comparison that selected it. -/
theorem roundShift_spec (m s : ℕ) :
    (roundShift m s = m / 2 ^ s ∧ 2 * (m % 2 ^ s) ≤ 2 ^ s) ∨
      (roundShift m s = m / 2 ^ s + 1 ∧ 2 ^ s ≤ 2 * (m % 2 ^ s)) := by
  unfold roundShift
  simp only
  split
  · exact Or.inl ⟨rfl, by omega⟩
  · split
    · exact Or.inr ⟨rfl, by omega⟩
    · split
      · exact Or.inl ⟨rfl, by omega⟩
      · exact Or.inr ⟨rfl, by omega⟩

/-- A value that is the nearer end of an interval free of candidates is
nearest among the candidates. -/
theorem nearest_of_gap (x lo hi v y : ℚ) (hlo : lo ≤ x) (hhi : x ≤ hi)
    (hv : (v = lo ∧ x - lo ≤ hi - x) ∨ (v = hi ∧ hi - x ≤ x - lo))
    (hy : y ≤ lo ∨ hi ≤ y) : |v - x| ≤ |y - x| := by
  have h1 : x - y ≤ |y - x| := by rw [abs_sub_comm]; exact le_abs_self _
  have h2 : y - x ≤ |y - x| := le_abs_self _
  rcases hv with ⟨rfl, hv⟩ | ⟨rfl, hv⟩
  · rw [abs_sub_comm, abs_of_nonneg (sub_nonneg.mpr hlo)]
    rcases hy with hy | hy <;> linarith
  · rw [abs_of_nonneg (sub_nonneg.mpr hhi)]
    rcases hy with hy | hy <;> linarith

/-- The negative of a representable number is representable. -/
theorem Representable.neg {q : ℚ} (hq : Representable q) : Representable (-q) := by
  obtain ⟨x, hx, hxq⟩ := hq
  cases x with
  | infinity neg => simp [Number.toRat] at hxq
  | nan => simp [Number.toRat] at hxq
  | finite neg m e =>
    refine ⟨Number.finite (!neg) m e, hx, ?_⟩
    simp only [Number.toRat, Option.some.injEq] at hxq ⊢
    rw [← hxq]
    cases neg <;> simp

/-- The value of a finite result of the rounding of `m * 2^e`: the exact
value when no bit is dropped, and the rounded quotient times the unit
`2^t` otherwise. -/
theorem roundToBinary64_value (neg : Bool) (m : ℕ) (e : ℤ) (v : ℚ)
    (hv : (roundToBinary64 neg m e).toRat = some v) :
    v = (if neg then -1 else 1) * ((m : ℚ) * 2 ^ e) ∨
      ∃ s : ℕ, 0 < s ∧
        (2 ^ 52 ≤ m / 2 ^ s ∨ e + (s : ℤ) ≤ minExp) ∧
        v = (if neg then -1 else 1) * ((roundShift m s : ℚ) * 2 ^ (e + (s : ℤ))) := by
  unfold roundToBinary64 at hv
  by_cases hm : m = 0
  · left
    simp only [if_pos hm, Number.toRat, Option.some.injEq] at hv
    rw [← hv, hm]
    simp
  · simp only [if_neg hm] at hv
    have hlen := two_pow_bitLength_le m hm
    have hcases := max_cases (e + (bitLength m : ℤ) - (precision : ℤ)) minExp
    generalize max (e + (bitLength m : ℤ) - (precision : ℤ)) minExp = t at hv hcases
    simp only [precision] at hcases hv
    by_cases hte : t ≤ e
    · left
      simp only [if_pos hte] at hv
      by_cases hov : maxExp < t
      · simp [hov, Number.toRat] at hv
      · simp only [if_neg hov, Number.toRat, Option.some.injEq] at hv
        rw [← hv]
        have het : e = t + ((e - t).toNat : ℤ) := by omega
        have hpow : (2 : ℚ) ^ e = 2 ^ t * 2 ^ (e - t).toNat := by
          conv_lhs => rw [het]
          rw [zpow_add₀ (by norm_num : (2 : ℚ) ≠ 0), zpow_natCast]
        rw [hpow]
        push_cast
        ring
    · right
      simp only [if_neg hte] at hv
      have hts : t = e + ((t - e).toNat : ℤ) := by omega
      refine ⟨(t - e).toNat, by omega, ?_, ?_⟩
      · rcases hcases with ⟨ht, -⟩ | ⟨ht, -⟩
        · left
          have hs : (t - e).toNat = bitLength m - 53 := by omega
          have hb : 54 ≤ bitLength m := by omega
          rw [hs, Nat.le_div_iff_mul_le (by positivity), ← pow_add]
          have : 52 + (bitLength m - 53) = bitLength m - 1 := by omega
          rw [this]
          exact hlen
        · right
          omega
      · rw [← hts]
        by_cases hcarry : roundShift m (t - e).toNat = 2 ^ 53
        · simp only [if_pos hcarry] at hv
          by_cases hov : maxExp < t + 1
          · simp [hov, Number.toRat] at hv
          · simp only [if_neg hov, Number.toRat, Option.some.injEq] at hv
            rw [← hv, hcarry, zpow_add₀ (by norm_num : (2 : ℚ) ≠ 0), zpow_one]
            push_cast
            ring
        · simp only [if_neg hcarry] at hv
          by_cases hov : maxExp < t
          · simp [hov, Number.toRat] at hv
          · simp only [if_neg hov, Number.toRat, Option.some.injEq] at hv
            rw [← hv]
            ring

/-- Rounding is to nearest: a finite result of `roundToBinary64` is at least
as close to the exact value as every representable number. -/
theorem roundToBinary64_nearest (neg : Bool) (m : ℕ) (e : ℤ) (v : ℚ)
    (hv : (roundToBinary64 neg m e).toRat = some v) (q : ℚ) (hq : Representable q) :
    |v - (if neg then -1 else 1) * ((m : ℚ) * 2 ^ e)|
      ≤ |q - (if neg then -1 else 1) * ((m : ℚ) * 2 ^ e)| := by
  rcases roundToBinary64_value neg m e v hv with h | ⟨s, hs, hK, h⟩
  · rw [h, sub_self, abs_zero]
    exact abs_nonneg _
  · -- reduce to the positive case
    have hsign : ∀ a b : ℚ, |(if neg then -1 else 1) * a - (if neg then -1 else 1) * b|
        = |a - b| := by
      intro a b
      cases neg
      · simp
      · simp only [if_true]
        rw [show (-1 : ℚ) * a - -1 * b = -(a - b) by ring, abs_neg]
    have hq' : Representable ((if neg then -1 else 1) * q) := by
      cases neg
      · simpa using hq
      · simpa using hq.neg
    have hqq : q = (if neg then -1 else 1) * ((if neg then -1 else 1) * q) := by
      cases neg <;> simp
    rw [h, hsign, hqq, hsign]
    generalize (if neg then (-1 : ℚ) else 1) * q = y at hq'
    -- the interval between the two neighbours
    have he : (0 : ℚ) < 2 ^ e := by positivity
    have hpow : (2 : ℚ) ^ (e + (s : ℤ)) = 2 ^ s * 2 ^ e := by
      rw [zpow_add₀ (by norm_num : (2 : ℚ) ≠ 0), zpow_natCast]; ring
    have hdm : (m : ℚ) = (2 : ℚ) ^ s * ((m / 2 ^ s : ℕ) : ℚ) + ((m % 2 ^ s : ℕ) : ℚ) := by
      have := Nat.div_add_mod m (2 ^ s)
      exact_mod_cast this.symm
    have hr : m % 2 ^ s < 2 ^ s := Nat.mod_lt _ (by positivity)
    have hrq : ((m % 2 ^ s : ℕ) : ℚ) < (2 : ℚ) ^ s := by exact_mod_cast hr
    have hgap := no_value_in_gap (m / 2 ^ s) (e + (s : ℤ)) hK y hq'
    have hy : y ≤ ((m / 2 ^ s : ℕ) : ℚ) * 2 ^ (e + (s : ℤ)) ∨
        (((m / 2 ^ s : ℕ) : ℚ) + 1) * 2 ^ (e + (s : ℤ)) ≤ y := by
      by_contra hcon
      push_neg at hcon
      exact hgap hcon
    have hxlo : (m : ℚ) * 2 ^ e - ((m / 2 ^ s : ℕ) : ℚ) * 2 ^ (e + (s : ℤ))
        = ((m % 2 ^ s : ℕ) : ℚ) * 2 ^ e := by
      rw [hpow]; conv_lhs => rw [hdm]
      ring
    have hxhi : (((m / 2 ^ s : ℕ) : ℚ) + 1) * 2 ^ (e + (s : ℤ)) - (m : ℚ) * 2 ^ e
        = ((2 : ℚ) ^ s - ((m % 2 ^ s : ℕ) : ℚ)) * 2 ^ e := by
      rw [hpow]; conv_lhs => rw [hdm]
      ring
    apply nearest_of_gap _ _ _ _ _ _ _ _ hy
    · have : (0 : ℚ) ≤ ((m % 2 ^ s : ℕ) : ℚ) * 2 ^ e := by positivity
      linarith
    · have : (0 : ℚ) ≤ ((2 : ℚ) ^ s - ((m % 2 ^ s : ℕ) : ℚ)) * 2 ^ e :=
        mul_nonneg (by linarith) he.le
      linarith
    · rcases roundShift_spec m s with ⟨hrs, hcmp⟩ | ⟨hrs, hcmp⟩
      · left
        refine ⟨by rw [hrs], ?_⟩
        rw [hxlo, hxhi]
        have hc : (2 : ℚ) * ((m % 2 ^ s : ℕ) : ℚ) ≤ (2 : ℚ) ^ s := by exact_mod_cast hcmp
        exact mul_le_mul_of_nonneg_right (by linarith) he.le
      · right
        refine ⟨by rw [hrs]; push_cast; ring, ?_⟩
        rw [hxlo, hxhi]
        have hc : (2 : ℚ) ^ s ≤ (2 : ℚ) * ((m % 2 ^ s : ℕ) : ℚ) := by exact_mod_cast hcmp
        exact mul_le_mul_of_nonneg_right (by linarith) he.le

/-- `Number::multiply` on finite values is the exact product correctly
rounded: a finite product is at least as close to the product of the values
of the factors as every representable number. -/
theorem multiply_nearest (x y : Number) (a b v : ℚ) (ha : x.toRat = some a)
    (hb : y.toRat = some b) (hv : (Number.multiply x y).toRat = some v) (q : ℚ)
    (hq : Representable q) : |v - a * b| ≤ |q - a * b| := by
  cases x with
  | infinity s => simp [Number.toRat] at ha
  | nan => simp [Number.toRat] at ha
  | finite s m e =>
    cases y with
    | infinity s' => simp [Number.toRat] at hb
    | nan => simp [Number.toRat] at hb
    | finite s' m' e' =>
      simp only [Number.toRat, Option.some.injEq] at ha hb
      simp only [Number.multiply] at hv
      have h := roundToBinary64_nearest (xor s s') (m * m') (e + e') v hv q hq
      have hab : a * b
          = (if xor s s' then -1 else 1) * (((m * m' : ℕ) : ℚ) * 2 ^ (e + e')) := by
        rw [← ha, ← hb, zpow_add₀ (by norm_num : (2 : ℚ) ≠ 0)]
        push_cast
        cases s <;> cases s' <;> simp <;> ring
      rw [hab]
      exact h

/-! ## The claims about the constant -/

/-- The value the expression evaluates to is a well-formed binary64 value. -/
theorem initialSupply_isBinary64 : initialSupply.IsBinary64 := by
  rw [initialSupply_eq]
  simp only [Number.IsBinary64, precision, minExp, maxExp]
  norm_num

/-- The exact product `10^27` lies strictly between two neighbouring binary64
values, `7275957614183425 * 2^37` and `7275957614183426 * 2^37`. -/
theorem exact_product_bracket :
    ((7275957614183425 : ℕ) : ℚ) * 2 ^ (37 : ℤ) < 10 ^ 27 ∧
      (10 : ℚ) ^ 27 < (((7275957614183425 : ℕ) : ℚ) + 1) * 2 ^ (37 : ℤ) := by
  constructor <;> norm_num

/-- C1: evaluated as the source evaluates it, `1000000000 * (10 ** 18)` is
`10^27 + 13287555072`; it is not the integer `10^27` the comments of the
migration announce (one billion tokens with 18 decimal places). -/
theorem initialSupply_not_exact :
    initialSupply.toRat = some ((10 : ℚ) ^ 27 + 13287555072) ∧
      initialSupply.toRat ≠ some ((10 : ℚ) ^ 27) := by
  rw [initialSupply_toRat]
  constructor
  · norm_num
  · intro h
    have := Option.some.inj h
    norm_num at this

/-- C7: under binary64 round-to-nearest, ties-to-even, `10^27` is not
representable, and `1000000000 * (10 ** 18)` evaluates to
`1000000000000000013287555072 = 2^27 * (5^27 + 99)`, which exceeds `10^27` by
`13287555072` and is the representable value nearest to `10^27`: every
representable value is at least as far from `10^27`, and strictly farther
unless it is that value. -/
theorem initialSupply_nearest_to_exact :
    ¬ Representable ((10 : ℚ) ^ 27) ∧
      initialSupply.toRat = some 1000000000000000013287555072 ∧
      (1000000000000000013287555072 : ℕ) = 2 ^ 27 * (5 ^ 27 + 99) ∧
      (1000000000000000013287555072 : ℕ) = 10 ^ 27 + 13287555072 ∧
      Representable 1000000000000000013287555072 ∧
      (∀ q : ℚ, Representable q →
        |(1000000000000000013287555072 : ℚ) - 10 ^ 27| ≤ |q - 10 ^ 27|) ∧
      (∀ q : ℚ, Representable q → q ≠ 1000000000000000013287555072 →
        |(1000000000000000013287555072 : ℚ) - 10 ^ 27| < |q - 10 ^ 27|) := by
  have hgap := no_value_in_gap 7275957614183425 37 (Or.inl (by norm_num))
  have hV : |(1000000000000000013287555072 : ℚ) - 10 ^ 27| = 13287555072 := by
    rw [abs_of_pos (by norm_num)]; norm_num
  have hfar : ∀ q : ℚ, Representable q → q ≠ 1000000000000000013287555072 →
      (13287555072 : ℚ) < |q - 10 ^ 27| := by
    intro q hq hne
    rcases le_or_lt q (((7275957614183425 : ℕ) : ℚ) * 2 ^ (37 : ℤ)) with h | h
    · have h1 : (10 : ℚ) ^ 27 - q ≤ |q - 10 ^ 27| := by
        rw [abs_sub_comm]; exact le_abs_self _
      have h2 : ((7275957614183425 : ℕ) : ℚ) * 2 ^ (37 : ℤ) = 999999999999999875848601600 := by
        norm_num
      rw [h2] at h
      have h3 : (13287555072 : ℚ) < 10 ^ 27 - q := by
        have : (10 : ℚ) ^ 27 = 1000000000000000000000000000 := by norm_num
        rw [this]; linarith
      linarith
    · rcases lt_or_le q ((((7275957614183425 : ℕ) : ℚ) + 1) * 2 ^ (37 : ℤ)) with h' | h'
      · exact absurd ⟨h, h'⟩ (hgap q hq)
      · have h2 : (((7275957614183425 : ℕ) : ℚ) + 1) * 2 ^ (37 : ℤ)
            = 1000000000000000013287555072 := by norm_num
        rw [h2] at h'
        have h4 : (1000000000000000013287555072 : ℚ) < q := lt_of_le_of_ne h' (Ne.symm hne)
        have h1 : q - 10 ^ 27 ≤ |q - 10 ^ 27| := le_abs_self _
        have : (10 : ℚ) ^ 27 = 1000000000000000000000000000 := by norm_num
        rw [this] at h1 ⊢
        linarith
  refine ⟨fun h => hgap _ h exact_product_bracket, initialSupply_toRat, by norm_num,
    by norm_num, ⟨initialSupply, initialSupply_isBinary64, initialSupply_toRat⟩, ?_, ?_⟩
  · intro q hq
    rw [hV]
    by_cases hne : q = 1000000000000000013287555072
    · rw [hne, hV]
    · exact (hfar q hq hne).le
  · intro q hq hne
    rw [hV]
    exact hfar q hq hne

/-- C8: both factors are exact in binary64: the literal `1000000000` and
`10 ** 18` (with `10^18 = 2^18 * 5^18` and `5^18 < 2^53`) stand for `10^9`
and `10^18` without rounding, as does the base `10`, and eighteen rounded
multiplications by `10` give the same power; the product is the one inexact
step, and it equals the value of the literal `1e27`, the correctly
rounded `10^27`. -/
theorem factors_exact_product_rounded :
    (Number.literal 1000000000).toRat = some ((10 : ℚ) ^ 9) ∧
      (Number.literal 10).toRat = some 10 ∧
      (Number.exponentiate (Number.literal 10) 18).toRat = some ((10 : ℚ) ^ 18) ∧
      (10 ^ 18 = 2 ^ 18 * 5 ^ 18 ∧ 5 ^ 18 < 2 ^ 53) ∧
      (List.replicate 18 (Number.literal 10)).foldl Number.multiply (Number.literal 1)
        = Number.exponentiate (Number.literal 10) 18 ∧
      initialSupply = Number.literal (10 ^ 27) ∧
      initialSupply = roundToBinary64 false (10 ^ 27) 0 ∧
      initialSupply.toRat ≠ some ((10 : ℚ) ^ 9 * 10 ^ 18) := by
  refine ⟨?_, ?_, ?_, by norm_num, by decide, ?_, ?_, ?_⟩
  · rw [literal_1000000000]; simp only [Number.toRat]; norm_num
  · rw [literal_10]; simp only [Number.toRat]; norm_num
  · rw [exponentiate_10_18]; simp only [Number.toRat]; norm_num
  · rw [initialSupply_eq, literal_1e27]
  · rw [initialSupply_eq]; exact literal_1e27.symm
  · rw [initialSupply_toRat]
    intro h
    have := Option.some.inj h
    norm_num at this

/-! ## The requests of the migration -/

/-- The deployer after the exported function ran is the deployer after the
single call of `deploy`, whether that call returned or threw. -/
theorem exports_state {α ρ ε κ : Type} (a : α) (d : Deployer α ρ ε κ) :
    (module.exports a d).2 = (d.deploy a [Value.number initialSupply]).2 := by
  simp only [module.exports]
  generalize d.deploy a [Value.number initialSupply] = out
  obtain ⟨r, d'⟩ := out
  cases r <;> rfl

/-- The completion of the exported function: the failure of `deploy` as it
is, or `undefined`. -/
theorem exports_result {α ρ ε κ : Type} (a : α) (d : Deployer α ρ ε κ) :
    (module.exports a d).1 =
      match (d.deploy a [Value.number initialSupply]).1 with
      | Except.error e => Except.error e
      | Except.ok _ => Except.ok Value.undefined := by
  simp only [module.exports]
  generalize d.deploy a [Value.number initialSupply] = out
  obtain ⟨r, d'⟩ := out
  cases r <;> rfl

/-- One invocation appends the request to the log of the deployer. -/
theorem exports_requests {α ρ ε κ : Type} (a : α) (d : Deployer α ρ ε κ) :
    (module.exports a d).2.requests = d.requests ++ [⟨a, [Value.number initialSupply]⟩] := by
  rw [exports_state]
  rfl

/-- After `n` invocations the log has grown by `n` copies of the request. -/
theorem invokeTimes_requests {α ρ ε κ : Type} (a : α) (n : ℕ) (d : Deployer α ρ ε κ) :
    (invokeTimes (module.exports a) n d).requests
      = d.requests ++ List.replicate n (⟨a, [Value.number initialSupply]⟩) := by
  induction n generalizing d with
  | zero => simp [invokeTimes]
  | succ n ih =>
    rw [invokeTimes, ih, exports_requests, List.append_assoc]
    rfl


/-- C6: the constructor argument passed to `deploy` is a valid uint256: for
every deployer, the request one invocation of the exported function appends
to the log carries exactly one argument, the Number `initialSupply`, and that
Number is a well-formed finite value equal to a natural number (so
non-negative, with no fractional part) strictly below `2^256`. -/
theorem deploy_argument_valid_uint256 {α ρ ε κ : Type} (a : α) (d : Deployer α ρ ε κ) :
    ∃ (x : Number) (n : ℕ),
      (module.exports a d).2.requests = d.requests ++ [⟨a, [Value.number x]⟩] ∧
        x = initialSupply ∧ x.IsBinary64 ∧ x.toRat = some (n : ℚ) ∧ n < 2 ^ 256 := by
  refine ⟨initialSupply, 1000000000000000013287555072, exports_requests a d, rfl,
    initialSupply_isBinary64, ?_, by norm_num⟩
  rw [initialSupply_toRat]
  norm_num

/-- Against `sampleDeployer`, whose log is empty, the log after one invocation
is the single request whose argument is the natural number
`1000000000000000013287555072`, below `2^256`. -/
theorem deploy_argument_valid_uint256_witness :
    ∃ (x : Number) (n : ℕ),
      (module.exports "MBATToken" sampleDeployer).2.requests
          = [] ++ [⟨"MBATToken", [Value.number x]⟩] ∧
        x = initialSupply ∧ x.IsBinary64 ∧ x.toRat = some (n : ℚ) ∧ n < 2 ^ 256 :=
  deploy_argument_valid_uint256 "MBATToken" sampleDeployer

/-- C2: for every deployer handed to the exported function, one invocation
leaves the deployer as one call of `deploy` leaves it, so the log grows by
exactly one request; its artifact is the one `artifacts.require` returned for
the name "MBATToken", its argument list is the one-element list holding
`initialSupply`, and the request is the same for every deployer. -/
theorem exports_issues_one_request {α ρ ε κ : Type} (artifacts : Artifacts α ε)
    (f : Deployer α ρ ε κ → Except ε (Value ρ) × Deployer α ρ ε κ)
    (hload : loadModule artifacts = Except.ok f) :
    ∃ a : α, artifacts.require "MBATToken" = Except.ok a ∧
      ∀ d : Deployer α ρ ε κ,
        (f d).2 = (d.deploy a [Value.number initialSupply]).2 ∧
        (f d).2.requests = d.requests ++ [⟨a, [Value.number initialSupply]⟩] ∧
        (f d).2.requests.length = d.requests.length + 1 := by
  unfold loadModule at hload
  cases hreq : artifacts.require "MBATToken" with
  | error e => rw [hreq] at hload; cases hload
  | ok a =>
    rw [hreq] at hload
    cases hload
    refine ⟨a, rfl, fun d => ⟨exports_state a d, exports_requests a d, ?_⟩⟩
    rw [exports_requests]
    simp

/-- The registry `sampleArtifacts` loads the module, and the exported function
then issues the one request for the artifact it returned. -/
theorem exports_issues_one_request_witness :
    loadModule sampleArtifacts
        = Except.ok (module.exports "MBATToken" : Deployer String Nat String Nat → _) ∧
      ∃ a : String, sampleArtifacts.require "MBATToken" = Except.ok a ∧
        ∀ d : Deployer String Nat String Nat,
          (module.exports "MBATToken" d).2 = (d.deploy a [Value.number initialSupply]).2 ∧
          (module.exports "MBATToken" d).2.requests
            = d.requests ++ [⟨a, [Value.number initialSupply]⟩] ∧
          (module.exports "MBATToken" d).2.requests.length = d.requests.length + 1 :=
  ⟨rfl, exports_issues_one_request sampleArtifacts (module.exports "MBATToken") rfl⟩

/-- C3: the migration is not idempotent on the request log: for every `n`,
`n` invocations against the same deployer append `n` requests, each for the
artifact with the same `initialSupply`, and two invocations leave a state
different from the state one invocation leaves. -/
theorem migration_not_idempotent {α ρ ε κ : Type} (a : α) (d : Deployer α ρ ε κ) :
    (∀ n : ℕ, (invokeTimes (module.exports a) n d).requests
        = d.requests ++ List.replicate n ⟨a, [Value.number initialSupply]⟩) ∧
      (∀ n : ℕ, (invokeTimes (module.exports a) n d).requests.length
        = d.requests.length + n) ∧
      invokeTimes (module.exports a) 2 d = (module.exports a (module.exports a d).2).2 ∧
      invokeTimes (module.exports a) 1 d = (module.exports a d).2 ∧
      invokeTimes (module.exports a) 2 d ≠ invokeTimes (module.exports a) 1 d := by
  refine ⟨fun n => invokeTimes_requests a n d, fun n => ?_, rfl, rfl, fun h => ?_⟩
  · rw [invokeTimes_requests]; simp
  · have h2 := invokeTimes_requests a 2 d
    have h1 := invokeTimes_requests a 1 d
    rw [h] at h2
    have := congrArg List.length (h2.symm.trans h1)
    simp at this

/-- C4: the exported function handles no error: it fails exactly when the
call of `deploy` fails, with the very same failure, and in either case the
deployer is left as that single call left it, with one request more in its
log. -/
theorem exports_fails_iff_deploy_fails {α ρ ε κ : Type} (a : α) (d : Deployer α ρ ε κ) :
    ((∃ e, (module.exports a d).1 = Except.error e)
        ↔ ∃ e, (d.deploy a [Value.number initialSupply]).1 = Except.error e) ∧
      (∀ e, (module.exports a d).1 = Except.error e
        ↔ (d.deploy a [Value.number initialSupply]).1 = Except.error e) ∧
      (module.exports a d).2 = (d.deploy a [Value.number initialSupply]).2 ∧
      (module.exports a d).2.requests.length = d.requests.length + 1 := by
  have hres := exports_result a d
  have hiff : ∀ e, (module.exports a d).1 = Except.error e
      ↔ (d.deploy a [Value.number initialSupply]).1 = Except.error e := by
    intro e
    rw [hres]
    cases (d.deploy a [Value.number initialSupply]).1 <;> simp
  refine ⟨⟨fun ⟨e, h⟩ => ⟨e, (hiff e).1 h⟩, fun ⟨e, h⟩ => ⟨e, (hiff e).2 h⟩⟩, hiff,
    exports_state a d, ?_⟩
  rw [exports_requests]
  simp

/-- Against `failingDeployer` the exported function fails with the failure of
`deploy`, after one request. -/
theorem exports_fails_iff_deploy_fails_witness :
    (module.exports "MBATToken" failingDeployer).1 = Except.error "insufficient funds" ∧
      (module.exports "MBATToken" failingDeployer).2.requests.length = 1 :=
  ⟨((exports_fails_iff_deploy_fails "MBATToken" failingDeployer).2.1 "insufficient funds").2 rfl,
    (exports_fails_iff_deploy_fails "MBATToken" failingDeployer).2.2.2⟩

/-- C5: every successful invocation of the exported function returns
`undefined`; when `deploy` returns, whatever value it returns, that value is
discarded and the function returns `undefined`; the deployer is left as the
call of `deploy` left it, so the request is the only output. -/
theorem exports_returns_undefined {α ρ ε κ : Type} (a : α) (d : Deployer α ρ ε κ) :
    (∀ v, (module.exports a d).1 = Except.ok v → v = Value.undefined) ∧
      (∀ w, (d.deploy a [Value.number initialSupply]).1 = Except.ok w →
        (module.exports a d).1 = Except.ok Value.undefined) ∧
      (module.exports a d).2 = (d.deploy a [Value.number initialSupply]).2 := by
  have hres := exports_result a d
  refine ⟨fun v hv => ?_, fun w hw => ?_, exports_state a d⟩
  · rw [hres] at hv
    cases hdep : (d.deploy a [Value.number initialSupply]).1 with
    | error e => rw [hdep] at hv; cases hv
    | ok w => rw [hdep] at hv; cases hv; rfl
  · rw [hres, hw]

/-- Against `sampleDeployer`, whose `deploy` returns a host object, the
exported function returns `undefined`. -/
theorem exports_returns_undefined_witness :
    (sampleDeployer.deploy "MBATToken" [Value.number initialSupply]).1
        = Except.ok (Value.object 7) ∧
      (module.exports "MBATToken" sampleDeployer).1 = Except.ok Value.undefined :=
  ⟨rfl, (exports_returns_undefined "MBATToken" sampleDeployer).2.1 (Value.object 7) rfl⟩

end MBAT
